import Mathlib

/-!
Shallow embedding of the NixOS application recommendation engine
(`modules/nixos/app-recommender/app_recommender.py`): the category
classifier, usage aggregator, preference ranker, rule expander and
recommendation store, together with theorems settling the spec claims.
-/

/-- Boolean test that one character list is a prefix of another; used to
model Python substring containment at the character level. -/
def charsPrefix : List Char → List Char → Bool
  | [], _ => true
  | _ :: _, [] => false
  | a :: as, b :: bs => a == b && charsPrefix as bs

/-- Boolean substring test on character lists: `charsSub n h` holds when
`n` occurs contiguously inside `h`. -/
def charsSub (n : List Char) : List Char → Bool
  | [] => n.isEmpty
  | c :: t => charsPrefix n (c :: t) || charsSub n t

/-- Python's `needle in hay` on strings. -/
def strContains (hay needle : String) : Bool :=
  charsSub needle.data hay.data

/-- ASCII lower-casing of a string, modelling Python's `str.lower()` on
the ASCII package names handled by the engine. -/
def lowerStr (s : String) : String :=
  String.mk (s.data.map Char.toLower)

/-- The `CATEGORIES` table of `app_recommender.py`, as an ordered list of
(category, keyword list) pairs preserving Python dict declaration order. -/
def CATEGORIES : List (String × List String) :=
  [ ("development",
     ["vscode", "vim", "neovim", "emacs", "jetbrains", "intellij", "pycharm",
      "webstorm", "rider", "clion", "rubymine", "idea", "android-studio", "eclipse",
      "git", "github", "gitlab", "subversion", "mercurial", "docker", "podman",
      "node", "python", "ruby", "rust", "go", "java", "kotlin", "scala", "haskell",
      "clang", "gcc", "llvm"]),
    ("graphic_design",
     ["gimp", "inkscape", "krita", "blender", "darktable", "digikam", "rawtherapee",
      "shotwell", "hugin", "luminance-hdr", "scribus", "photogimp", "figma", "sketch",
      "pinta", "aseprite", "drawio"]),
    ("productivity",
     ["libreoffice", "onlyoffice", "wpsoffice", "calligra", "gnumeric", "abiword",
      "thunderbird", "evolution", "nextcloud", "joplin", "obsidian", "notion",
      "evernote", "simplenote", "standardnotes", "zotero", "mendeley", "calibre",
      "todoist", "tasks", "planner", "gnome-calendar", "korganizer"]),
    ("multimedia",
     ["vlc", "mpv", "kodi", "mplayer", "totem", "rhythmbox", "clementine", "strawberry",
      "lollypop", "audacious", "spotify", "audacity", "ardour", "lmms", "musescore",
      "handbrake", "obs", "kdenlive", "shotcut", "davinci", "openshot", "pitivi",
      "ffmpeg"]),
    ("gaming",
     ["steam", "lutris", "heroic", "wine", "proton", "gamemode", "mangohud", "goverlay",
      "retroarch", "dolphin-emu", "pcsx2", "rpcs3", "yuzu", "citra", "dosbox", "scummvm",
      "itch", "gog", "minigalaxy", "legendary"]),
    ("system_tools",
     ["gnome-system-monitor", "htop", "btop", "iotop", "powertop", "s-tui", "neofetch",
      "gparted", "baobab", "stacer", "bleachbit", "timeshift", "gtkhash", "gnome-disks",
      "filelight", "ncdu", "glances", "inxi", "hardinfo", "clamav", "gufw", "firewalld"]),
    ("networking",
     ["firefox", "chromium", "brave", "opera", "vivaldi", "qutebrowser", "wget", "curl",
      "transmission", "deluge", "qbittorrent", "filezilla", "remmina", "teamviewer",
      "anydesk", "wireshark", "nmap", "netcat", "openssh", "mosh", "wireguard", "openvpn",
      "mullvad", "nordvpn", "protonvpn"]),
    ("security",
     ["keepassxc", "bitwarden", "pass", "gnupg", "cryptsetup", "veracrypt", "tomb",
      "yubikey-manager", "nitrokey-app", "seahorse", "kleopatra", "lastpass",
      "authenticator", "opensnitch", "clamav", "lynis", "chkrootkit", "firejail",
      "apparmor"]) ]

/-- Predicate used by the classifier loop: some keyword of the category
entry `p` is a substring of the lower-cased package name. -/
def catMatches (pkg_name : String) (p : String × List String) : Bool :=
  p.2.any (fun kw => strContains (lowerStr pkg_name) kw)

/-- Embedding of `AppRecommender._determine_category`: lower-case the
package name, scan `CATEGORIES` in declaration order, and return the first
category one of whose keywords is a substring of the lowered name, or
`"other"` when no keyword matches. The metadata argument of the Python
function is ignored there and omitted here. -/
def determineCategory (pkg_name : String) : String :=
  match CATEGORIES.find? (catMatches pkg_name) with
  | some p => p.1
  | none => "other"

/-- Helper: `find?` returns the head of the first matching suffix. -/
theorem find?_first {α : Type} (p : α → Bool) (pre : List α) (x : α) (post : List α)
    (hpre : ∀ y ∈ pre, p y = false) (hx : p x = true) :
    (pre ++ x :: post).find? p = some x := by
  induction pre with
  | nil => simp [List.find?_cons, hx]
  | cons a l ih =>
      have ha : p a = false := hpre a (by simp)
      simp only [List.cons_append, List.find?_cons, ha]
      exact ih (fun y hy => hpre y (by simp [hy]))

/-- Claim C1: classification lower-cases the name, scans the fixed
category table in declaration order, returns the first category having a
keyword that is a substring of the lower-cased name, and returns
`"other"` when no keyword of any category matches; and it is a pure
deterministic function, so two calls with the same name agree. -/
theorem determineCategory_characterisation (name : String) :
    ((∀ p ∈ CATEGORIES, catMatches name p = false) →
      determineCategory name = "other") ∧
    (∀ pre p post, CATEGORIES = pre ++ p :: post →
      (∀ q ∈ pre, catMatches name q = false) →
      catMatches name p = true →
      determineCategory name = p.1) ∧
    (∀ other : String, other = name →
      determineCategory other = determineCategory name) := by
  refine ⟨?_, ?_, ?_⟩
  · intro h
    have : CATEGORIES.find? (catMatches name) = none :=
      List.find?_eq_none.mpr (fun x hx => by simp [h x hx])
    simp [determineCategory, this]
  · intro pre p post hsplit hpre hp
    have : CATEGORIES.find? (catMatches name) = some p := by
      rw [hsplit]; exact find?_first _ pre p post hpre hp
    simp [determineCategory, this]
  · intro other h; rw [h]

/-- Witness for C1: concrete instantiations. The name `"vscode"` matches
the first (development) category via its first keyword, and the name
`"zzz-unknown"` matches nothing and classifies as `"other"`. -/
theorem determineCategory_characterisation_witness :
    determineCategory "zzz-unknown" = "other" ∧
    determineCategory "vscode" = "development" := by
  constructor
  · exact (determineCategory_characterisation "zzz-unknown").1 (by decide)
  · exact (determineCategory_characterisation "vscode").2.1
      [] ("development",
     ["vscode", "vim", "neovim", "emacs", "jetbrains", "intellij", "pycharm",
      "webstorm", "rider", "clion", "rubymine", "idea", "android-studio", "eclipse",
      "git", "github", "gitlab", "subversion", "mercurial", "docker", "podman",
      "node", "python", "ruby", "rust", "go", "java", "kotlin", "scala", "haskell",
      "clang", "gcc", "llvm"]) (CATEGORIES.drop 1) (by decide) (by decide) (by decide)

/-- A row of the `installed_apps` table. The integer rowid is modelled by
list position; timestamps are opaque strings, nullable columns are
`Option`. -/
structure InstalledRow where
  app_name : String
  category : Option String
  install_date : Option String
  last_used : Option String
  usage_count : Nat
deriving DecidableEq, Repr

/-- Membership test for an app name in the `installed_apps` table,
modelling the `SELECT id FROM installed_apps WHERE app_name = ?` probe. -/
def hasApp (db : List InstalledRow) (name : String) : Bool :=
  db.any (fun r => r.app_name == name)

/-- The freshly inserted row of `scan_installed_applications`: classified
category, column defaults `usage_count = 0`, null `last_used`, and
`install_date` from `CURRENT_TIMESTAMP`. -/
def newRow (name now : String) : InstalledRow :=
  { app_name := name, category := some (determineCategory name),
    install_date := some now, last_used := none, usage_count := 0 }

/-- Embedding of the database loop of
`AppRecommender.scan_installed_applications`: for each scanned package
name, insert a row with the classified category, usage count 0 (column
default) and null `last_used` when no row with that `app_name` exists;
rows already present are not touched. `now` models `CURRENT_TIMESTAMP`. -/
def recordInstalled (db : List InstalledRow) (pkgs : List String) (now : String) :
    List InstalledRow :=
  pkgs.foldl (fun acc name =>
    if hasApp acc name then acc else acc ++ [newRow name now]) db

/-- Embedding of the database loop of
`AppRecommender.scan_application_usage`: for each recently-used name, the
SQL UPDATE sets `last_used` to the scan time and increments `usage_count`
on every row whose `app_name` matches, and matches no row when the name
is not installed. -/
def recordUsage (db : List InstalledRow) (names : List String) (now : String) :
    List InstalledRow :=
  names.foldl (fun acc name =>
    acc.map (fun r =>
      if r.app_name == name
      then { r with last_used := some now, usage_count := r.usage_count + 1 }
      else r)) db


/-- Helper: after recording, every scanned name is present. -/
theorem hasApp_recordInstalled (pkgs : List String) (db : List InstalledRow)
    (now : String) (name : String) (h : hasApp db name = true ∨ name ∈ pkgs) :
    hasApp (recordInstalled db pkgs now) name = true := by
  induction pkgs generalizing db with
  | nil =>
      rcases h with h | h
      · exact h
      · cases h
  | cons p ps ih =>
      show hasApp (recordInstalled
        (if hasApp db p then db else db ++ [newRow p now]) ps now) name = true
      rcases h with h | h
      · apply ih
        left
        by_cases hp : hasApp db p
        · simpa [hp] using h
        · rw [if_neg hp]
          simp only [hasApp, List.any_append]
          simp [hasApp] at h
          simp [h]
      · rcases List.mem_cons.mp h with rfl | hmem
        · apply ih
          left
          by_cases hp : hasApp db name
          · simp [hp]
          · simp only [hp, if_false]
            simp [hasApp, List.any_append, newRow]
        · exact ih _ (Or.inr hmem)

/-- Helper: recording names that are all present changes nothing. -/
theorem recordInstalled_of_all_present (pkgs : List String) (db : List InstalledRow)
    (now : String) (h : ∀ n ∈ pkgs, hasApp db n = true) :
    recordInstalled db pkgs now = db := by
  induction pkgs generalizing db with
  | nil => rfl
  | cons p ps ih =>
      have hp : hasApp db p = true := h p (by simp)
      show recordInstalled (if hasApp db p then db else db ++ [newRow p now]) ps now = db
      rw [if_pos hp]
      exact ih db (fun n hn => h n (by simp [hn]))

/-- Helper: recording installed packages only appends new rows, each a
`newRow` for one of the scanned names. -/
theorem recordInstalled_shape (pkgs : List String) (db : List InstalledRow)
    (now : String) :
    ∃ new, recordInstalled db pkgs now = db ++ new ∧
      ∀ r ∈ new, r.app_name ∈ pkgs ∧ r = newRow r.app_name now := by
  induction pkgs generalizing db with
  | nil => exact ⟨[], by simp [recordInstalled], by simp⟩
  | cons p ps ih =>
      show ∃ new, recordInstalled
        (if hasApp db p then db else db ++ [newRow p now]) ps now = db ++ new ∧ _
      by_cases hp : hasApp db p
      · rw [if_pos hp]
        obtain ⟨new, heq, hprop⟩ := ih db
        exact ⟨new, heq, fun r hr =>
          ⟨List.mem_cons_of_mem _ (hprop r hr).1, (hprop r hr).2⟩⟩
      · rw [if_neg hp]
        obtain ⟨new, heq, hprop⟩ := ih (db ++ [newRow p now])
        refine ⟨newRow p now :: new, by simpa using heq, ?_⟩
        intro r hr
        rcases List.mem_cons.mp hr with rfl | hr
        · exact ⟨by simp [newRow], rfl⟩
        · exact ⟨List.mem_cons_of_mem _ (hprop r hr).1, (hprop r hr).2⟩

/-- Claim C10: recording installed packages is idempotent. Each scanned
name not already present is inserted as a new row with
`category = classify(name)` and usage count 0; rows already present are
left entirely untouched (the prior table is an unchanged prefix of the
result); and a second scan with an identical package set leaves every
row, usage counts included, unchanged. -/
theorem recordInstalled_idempotent (db : List InstalledRow) (pkgs : List String)
    (t₁ t₂ : String) :
    (∃ new, recordInstalled db pkgs t₁ = db ++ new ∧
      ∀ r ∈ new, r.app_name ∈ pkgs ∧
        r.category = some (determineCategory r.app_name) ∧ r.usage_count = 0) ∧
    recordInstalled (recordInstalled db pkgs t₁) pkgs t₂ = recordInstalled db pkgs t₁ := by
  constructor
  · obtain ⟨new, heq, hp⟩ := recordInstalled_shape pkgs db t₁
    refine ⟨new, heq, fun r hr => ⟨(hp r hr).1, ?_, ?_⟩⟩
    · rw [(hp r hr).2]; rfl
    · rw [(hp r hr).2]; rfl
  · apply recordInstalled_of_all_present
    intro n hn
    exact hasApp_recordInstalled pkgs db t₁ n (Or.inr hn)

/-- Witness for C10 at a concrete database and package set. -/
theorem recordInstalled_idempotent_witness :
    recordInstalled (recordInstalled [] ["vscode", "zzz-unknown"] "T")
        ["vscode", "zzz-unknown"] "U" =
      recordInstalled [] ["vscode", "zzz-unknown"] "T" ∧
    recordInstalled [] ["vscode", "zzz-unknown"] "T" =
      [newRow "vscode" "T", newRow "zzz-unknown" "T"] :=
  ⟨(recordInstalled_idempotent [] ["vscode", "zzz-unknown"] "T" "U").2, by decide⟩

/-- Helper: with duplicate-free usage names (the source builds them from
a Python set), `recordUsage` is one pointwise update of the table. -/
theorem recordUsage_eq_map (names : List String) (db : List InstalledRow)
    (now : String) (h : names.Nodup) :
    recordUsage db names now = db.map (fun r =>
      if r.app_name ∈ names
      then { r with last_used := some now, usage_count := r.usage_count + 1 }
      else r) := by
  induction names generalizing db with
  | nil => simp [recordUsage]
  | cons n ns ih =>
      have hn : n ∉ ns := (List.nodup_cons.mp h).1
      have hns : ns.Nodup := (List.nodup_cons.mp h).2
      show recordUsage (db.map fun r =>
        if r.app_name == n
        then { r with last_used := some now, usage_count := r.usage_count + 1 }
        else r) ns now = _
      rw [ih _ hns, List.map_map]
      apply List.map_congr_left
      intro r _
      by_cases hrn : r.app_name = n
      · simp [Function.comp, hrn, hn]
      · simp only [Function.comp, beq_iff_eq, hrn, if_false, List.mem_cons]
        by_cases hmem : r.app_name ∈ ns
        · simp [hmem, hrn]
        · simp [hmem, hrn]

/-- Claim C9: a usage scan increments the usage count of each reported
installed name by exactly one and stamps its last-used time; reported
names with no installed row create and change nothing (the column of app
names is unchanged); and usage counts never decrease under the core's
table-mutating operations (usage scans and installed scans). -/
theorem recordUsage_spec (db : List InstalledRow) (names : List String)
    (now : String) (pkgs : List String) (t : String) (h : names.Nodup) :
    ((recordUsage db names now).map (fun r => r.app_name) =
      db.map (fun r => r.app_name)) ∧
    (∀ r ∈ db, r.app_name ∈ names →
      { r with last_used := some now, usage_count := r.usage_count + 1 } ∈
        recordUsage db names now) ∧
    (∀ r ∈ db, r.app_name ∉ names → r ∈ recordUsage db names now) ∧
    (∀ r ∈ db, ∃ r' ∈ recordUsage db names now,
      r'.app_name = r.app_name ∧ r.usage_count ≤ r'.usage_count) ∧
    (∀ r ∈ db, ∃ r' ∈ recordInstalled db pkgs t,
      r'.app_name = r.app_name ∧ r.usage_count ≤ r'.usage_count) := by
  rw [recordUsage_eq_map names db now h]
  refine ⟨?_, ?_, ?_, ?_, ?_⟩
  · rw [List.map_map]
    apply List.map_congr_left
    intro r _
    by_cases hmem : r.app_name ∈ names <;> simp [Function.comp, hmem]
  · intro r hr hmem
    have := List.mem_map_of_mem (fun r : InstalledRow =>
      if r.app_name ∈ names
      then { r with last_used := some now, usage_count := r.usage_count + 1 }
      else r) hr
    simpa [hmem] using this
  · intro r hr hmem
    have := List.mem_map_of_mem (fun r : InstalledRow =>
      if r.app_name ∈ names
      then { r with last_used := some now, usage_count := r.usage_count + 1 }
      else r) hr
    simpa [hmem] using this
  · intro r hr
    refine ⟨if r.app_name ∈ names
      then { r with last_used := some now, usage_count := r.usage_count + 1 }
      else r, List.mem_map_of_mem _ hr, ?_, ?_⟩
    · by_cases hmem : r.app_name ∈ names <;> simp [hmem]
    · by_cases hmem : r.app_name ∈ names <;> simp [hmem]
  · intro r hr
    obtain ⟨new, heq, _⟩ := recordInstalled_shape pkgs db t
    exact ⟨r, by rw [heq]; exact List.mem_append_left _ hr, rfl, Nat.le_refl _⟩

/-- Concrete example row used by witnesses: `vim` installed in category
`development` with the given last-used value and usage count. -/
def vimRow (lu : Option String) (k : Nat) : InstalledRow :=
  { app_name := "vim", category := some "development", install_date := none,
    last_used := lu, usage_count := k }

/-- Witness for C9: a concrete table with one installed app `vim` at
usage count 3; scanning usage of `vim` yields count 4 and the scan
timestamp. -/
theorem recordUsage_spec_witness :
    vimRow (some "T") 4 ∈ recordUsage [vimRow none 3] ["vim"] "T" :=
  (recordUsage_spec [vimRow none 3] ["vim"] "T" [] "U" (by decide)).2.1
    (vimRow none 3) (by decide) (by decide)

/-- Python truthiness of the nullable `category` column: `if category:`
skips both NULL and the empty string. -/
def truthyCat : Option String → Bool
  | none => false
  | some c => !c.isEmpty

/-- One step of the dict accumulation
`categories[category] = categories.get(category, 0) + usage_count`:
add `v` to the entry of key `c`, keeping dict insertion order, appending
a new entry at the end when `c` is absent. -/
def bump : List (String × Nat) → String → Nat → List (String × Nat)
  | [], c, v => [(c, v)]
  | (k, s) :: rest, c, v =>
      if k == c then (k, s + v) :: rest else (k, s) :: bump rest c v

/-- The per-category usage totals of `generate_recommendations`: an
insertion-ordered association list accumulated over the rows of
`installed_apps`, skipping falsy categories. -/
def categoryScores (rows : List InstalledRow) : List (String × Nat) :=
  rows.foldl (fun acc r =>
    match r.category with
    | none => acc
    | some c => if c.isEmpty then acc else bump acc c r.usage_count) []

/-- The preferred-category ranking of `generate_recommendations`:
`sorted(categories.items(), key=value, reverse=True)`. Python's `sorted`
is a stable sort, modelled by the stable insertion sort over the dict's
insertion order, descending by aggregate score. -/
def preferredCategories (rows : List InstalledRow) : List (String × Nat) :=
  List.insertionSort (fun a b => b.2 ≤ a.2) (categoryScores rows)

/-- Whether some row of the table has truthy category exactly `c`. -/
def hasCatRow (rows : List InstalledRow) (c : String) : Bool :=
  rows.any (fun r => truthyCat r.category && decide (r.category = some c))

/-- Sum of the usage counts of the rows whose truthy category is `c`. -/
def catUsageSum (rows : List InstalledRow) (c : String) : Nat :=
  ((rows.filter (fun r => truthyCat r.category && decide (r.category = some c))).map
    (fun r => r.usage_count)).sum

/-- Helper: looking up the bumped key adds `v` to its previous total. -/
theorem lookup_bump_self (l : List (String × Nat)) (c : String) (v : Nat) :
    List.lookup c (bump l c v) = some (((List.lookup c l).getD 0) + v) := by
  induction l with
  | nil => simp [bump, List.lookup]
  | cons p rest ih =>
      obtain ⟨k, s⟩ := p
      by_cases hk : k = c
      · subst hk
        simp [bump, List.lookup]
      · have hk' : (k == c) = false := by simp [hk]
        have hck : (c == k) = false := by simp [Ne.symm hk]
        simp [bump, hk', List.lookup, hck, ih]

/-- Helper: bumping one key leaves lookups of other keys unchanged. -/
theorem lookup_bump_other (l : List (String × Nat)) (k c : String) (v : Nat)
    (h : k ≠ c) : List.lookup c (bump l k v) = List.lookup c l := by
  have hck : (c == k) = false := by
    simp only [beq_eq_false_iff_ne]
    exact Ne.symm h
  induction l with
  | nil => simp [bump, List.lookup, hck]
  | cons p rest ih =>
      obtain ⟨k', s⟩ := p
      by_cases hk : k' = k
      · subst hk
        simp [bump, List.lookup, hck]
      · have hk' : (k' == k) = false := by
          simp only [beq_eq_false_iff_ne]
          exact hk
        by_cases hck' : c = k'
        · subst hck'
          simp [bump, hk', List.lookup]
        · have h1 : (c == k') = false := by
            simp only [beq_eq_false_iff_ne]
            exact hck'
          simp [bump, hk', List.lookup, h1, ih]

/-- Helper: every key of a bumped list is an old key or the bumped key. -/
theorem key_of_bump (l : List (String × Nat)) (c : String) (v : Nat) (q : String × Nat)
    (h : q ∈ bump l c v) : q.1 ∈ l.map Prod.fst ∨ q.1 = c := by
  induction l with
  | nil =>
      simp [bump] at h
      exact Or.inr (by rw [h])
  | cons p rest ih =>
      obtain ⟨k, s⟩ := p
      by_cases hk : k = c
      · subst hk
        simp only [bump, beq_self_eq_true, if_true] at h
        rcases List.mem_cons.mp h with rfl | h
        · exact Or.inl (by simp)
        · exact Or.inl (List.mem_map_of_mem Prod.fst (List.mem_cons_of_mem _ h))
      · have hk' : (k == c) = false := by
          simp only [beq_eq_false_iff_ne]
          exact hk
        simp only [bump, hk', Bool.false_eq_true, if_false] at h
        rcases List.mem_cons.mp h with rfl | h
        · exact Or.inl (by simp)
        · rcases ih h with h1 | h1
          · exact Or.inl (by simp only [List.map_cons]; exact List.mem_cons_of_mem _ h1)
          · exact Or.inr h1

/-- Helper: lookup characterisation of the category-total fold, with a
generalized accumulator. -/
theorem lookup_categoryScores_fold (rows : List InstalledRow)
    (acc : List (String × Nat)) (c : String) :
    List.lookup c (rows.foldl (fun acc r =>
      match r.category with
      | none => acc
      | some cat => if cat.isEmpty then acc else bump acc cat r.usage_count) acc) =
    match List.lookup c acc with
    | some s => some (s + catUsageSum rows c)
    | none => if hasCatRow rows c then some (catUsageSum rows c) else none := by
  induction rows generalizing acc with
  | nil =>
      cases hl : List.lookup c acc <;> simp [catUsageSum, hasCatRow, hl]
  | cons r rows ih =>
      rw [List.foldl_cons]
      cases hcat : r.category with
      | none =>
          rw [ih]
          have hm : (truthyCat r.category && decide (r.category = some c)) = false := by
            simp [hcat, truthyCat]
          simp [catUsageSum, hasCatRow, List.filter_cons, hm, hcat]
      | some cat =>
          by_cases hemp : cat.isEmpty
          · have hm : (truthyCat r.category && decide (r.category = some c)) = false := by
              simp [hcat, truthyCat, hemp]
            simp only [hcat]
            rw [if_pos hemp, ih]
            simp [catUsageSum, hasCatRow, List.filter_cons, hm]
          · simp only [hcat]
            rw [if_neg hemp, ih]
            by_cases hc : cat = c
            · subst hc
              have hm : (truthyCat r.category && decide (r.category = some cat)) = true := by
                simp [hcat, truthyCat, hemp]
              rw [lookup_bump_self]
              cases hl : List.lookup cat acc with
              | none =>
                  simp [hl, catUsageSum, hasCatRow, List.filter_cons, hm, Nat.add_assoc,
                    Nat.zero_add]
              | some s =>
                  simp [hl, catUsageSum, hasCatRow, List.filter_cons, hm, Nat.add_assoc]
            · have hm : (truthyCat r.category && decide (r.category = some c)) = false := by
                simp [hcat, truthyCat, hc]
              rw [lookup_bump_other _ _ _ _ hc]
              simp [catUsageSum, hasCatRow, List.filter_cons, hm]

/-- Claim C8: ranking reads the installed rows, sums usage counts per
category while ignoring rows with a falsy (NULL or empty) category, and
returns the categories sorted descending by aggregate score; the sort is
Python's stable `sorted`, so equal-score categories keep the dict's
deterministic first-appearance order as tie-break; ranking is a pure
function of the rows (it neither adds nor drops entries). -/
theorem rank_categories_spec (rows : List InstalledRow) :
    (∀ c, List.lookup c (categoryScores rows) =
      if hasCatRow rows c then some (catUsageSum rows c) else none) ∧
    List.Perm (preferredCategories rows) (categoryScores rows) ∧
    (preferredCategories rows).Pairwise (fun a b => b.2 ≤ a.2) ∧
    (∀ a b : String × Nat, a.2 = b.2 → List.Sublist [a, b] (categoryScores rows) →
      List.Sublist [a, b] (preferredCategories rows)) := by
  refine ⟨?_, ?_, ?_, ?_⟩
  · intro c
    have := lookup_categoryScores_fold rows [] c
    simpa [categoryScores] using this
  · exact List.perm_insertionSort _ _
  · haveI : IsTotal (String × Nat) (fun a b => b.2 ≤ a.2) :=
      ⟨fun a b => Nat.le_total b.2 a.2⟩
    haveI : IsTrans (String × Nat) (fun a b => b.2 ≤ a.2) :=
      ⟨fun _ _ _ hab hbc => Nat.le_trans hbc hab⟩
    exact List.sorted_insertionSort _ _
  · intro a b hab hsub
    exact List.pair_sublist_insertionSort (le_of_eq hab.symm) hsub

/-- Concrete example row: app `n` in category `c` with usage count `k`. -/
def appRow (n c : String) (k : Nat) : InstalledRow :=
  { app_name := n, category := some c, install_date := none,
    last_used := none, usage_count := k }

/-- Witness for C8: with category counts A:5, B:5, C:1 (A first observed,
then B, then C), both A and B precede C and the A/B tie keeps the
first-appearance order. -/
theorem rank_categories_spec_witness :
    preferredCategories [appRow "a" "A" 5, appRow "b" "B" 5, appRow "c" "C" 1] =
      [("A", 5), ("B", 5), ("C", 1)] ∧
    List.Sublist [("A", 5), ("B", 5)]
      (preferredCategories [appRow "a" "A" 5, appRow "b" "B" 5, appRow "c" "C" 1]) := by
  constructor
  · decide
  · exact (rank_categories_spec
      [appRow "a" "A" 5, appRow "b" "B" 5, appRow "c" "C" 1]).2.2.2
      ("A", 5) ("B", 5) rfl (by decide)

/-- A row of the `recommendations` table. The rowid is modelled by list
position; `score` is the exact rational value of the stored REAL. -/
structure RecRow where
  app_name : String
  category : String
  reason : String
  score : ℚ
  rec_date : String
deriving DecidableEq, Repr

/-- The constant default score `0.8` assigned by the rule expansion,
written as the explicitly reduced rational 4/5 so that the embedding
stays kernel-computable. -/
def defaultScore : ℚ := ⟨4, 5, by norm_num, by norm_num⟩

/-- The default score is the literal `0.8` of the source. -/
theorem defaultScore_eq : defaultScore = 0.8 := by
  rw [defaultScore, Rat.mk'_eq_divInt]
  norm_num [Rat.divInt_eq_div]

/-- The `development` entry of `RECOMMENDATION_RULES`. -/
def DEV_RULES : List (String × List String) :=
  [ ("python", ["vscode", "pycharm", "jupyter"]),
    ("web", ["vscode", "webstorm", "firefox-developer-edition", "postman"]),
    ("java", ["intellij-idea", "eclipse", "maven", "gradle"]),
    ("rust", ["vscode", "rust-analyzer", "rustup", "cargo"]),
    ("gamedev", ["godot", "blender", "aseprite", "gimp"]) ]

/-- The `gaming` entry of `RECOMMENDATION_RULES`. -/
def GAMING_RULES : List (String × List String) :=
  [ ("steam", ["gamemode", "mangohud", "steam-run", "gamescope"]),
    ("emulation", ["retroarch", "lutris", "wine", "proton-ge-custom"]),
    ("recording", ["obs-studio", "replay-sorcery", "nvidia-shadowplay"]) ]

/-- The `multimedia` entry of `RECOMMENDATION_RULES`. -/
def MULTIMEDIA_RULES : List (String × List String) :=
  [ ("audio_production", ["ardour", "audacity", "lmms", "carla", "jack2"]),
    ("video_editing", ["kdenlive", "shotcut", "davinci-resolve", "blender"]),
    ("streaming", ["obs-studio", "streamlink", "yt-dlp", "streamlink-twitch-gui"]) ]

/-- The `hardware_specific` entry of `RECOMMENDATION_RULES`. -/
def HARDWARE_RULES : List (String × List String) :=
  [ ("amd_gpu", ["corectrl", "radeontop", "rocm-smi"]),
    ("nvidia_gpu", ["nvidia-settings", "nvtop", "gwe"]),
    ("intel_gpu", ["intel-gpu-tools", "libva-utils"]),
    ("laptop", ["powertop", "tlp", "auto-cpufreq", "battery-monitor"]) ]

/-- The `RECOMMENDATION_RULES` table of `app_recommender.py`, as an
ordered list of (category, subcategory rules) pairs preserving Python
dict declaration order. -/
def RECOMMENDATION_RULES : List (String × List (String × List String)) :=
  [ ("development", DEV_RULES),
    ("gaming", GAMING_RULES),
    ("multimedia", MULTIMEDIA_RULES),
    ("hardware_specific", HARDWARE_RULES) ]

/-- Answers of the four Hardware Probe queries used by one generation
pass. -/
structure HW where
  amd : Bool
  nvidia : Bool
  intel : Bool
  laptop : Bool
deriving DecidableEq, Repr

/-- Embedding of `AppRecommender._has_amd_gpu`: `lspci` output is `none`
when the probe tool fails (the bare `except` returns `False`), otherwise
the check is substring containment on the output. -/
def hasAmdGpu (lspci : Option String) : Bool :=
  match lspci with
  | none => false
  | some out => strContains out "AMD" && (strContains out "VGA" || strContains out "Display")

/-- Embedding of `AppRecommender._has_nvidia_gpu`, failing closed. -/
def hasNvidiaGpu (lspci : Option String) : Bool :=
  match lspci with
  | none => false
  | some out => strContains out "NVIDIA" && (strContains out "VGA" || strContains out "Display")

/-- Embedding of `AppRecommender._has_intel_gpu`, failing closed. -/
def hasIntelGpu (lspci : Option String) : Bool :=
  match lspci with
  | none => false
  | some out => strContains out "Intel" && (strContains out "VGA" || strContains out "Display")

/-- Embedding of `AppRecommender._is_laptop`: the power-supply type
listing is `none` when reading fails, otherwise the check is substring
containment of `"Battery"`. -/
def isLaptop (power : Option String) : Bool :=
  match power with
  | none => false
  | some out => strContains out "Battery"

/-- The hardware-compatibility test of `generate_recommendations` for a
`hardware_specific` subcategory: each of the four known subcategory keys
requires its probe; unknown keys pass through unfiltered. -/
def hwAllows (hw : HW) (subcategory : String) : Bool :=
  if subcategory == "amd_gpu" then hw.amd
  else if subcategory == "nvidia_gpu" then hw.nvidia
  else if subcategory == "intel_gpu" then hw.intel
  else if subcategory == "laptop" then hw.laptop
  else true

/-- The reason string generated for an accepted candidate. -/
def mkReason (category subcategory : String) : String :=
  "Recommended for " ++ category ++ "/" ++ subcategory ++
    " based on your usage patterns"

/-- The recommendation row inserted for an accepted candidate. -/
def candRow (category subcategory app now : String) : RecRow :=
  { app_name := app, category := category,
    reason := mkReason category subcategory,
    score := defaultScore, rec_date := now }

/-- SQLite `INSERT OR REPLACE` on the UNIQUE `app_name` key: any
conflicting row is deleted and the new row inserted with a fresh larger
rowid, i.e. at the end of rowid order. -/
def upsertRec (tbl : List RecRow) (r : RecRow) : List RecRow :=
  (tbl.filter (fun q => !(q.app_name == r.app_name))) ++ [r]

/-- The app names of the installed rows, read once at the start of a
generation pass (`installed_app_names`). -/
def installedNames (rows : List InstalledRow) : List String :=
  rows.map (fun r => r.app_name)

/-- The innermost loop of `generate_recommendations` over one rule's
candidate list: skip candidates already installed; for the
`hardware_specific` category skip candidates whose subcategory probe
denies; insert-or-replace every accepted candidate. -/
def expandApps (ins : List String) (hw : HW) (now category subcategory : String)
    (apps : List String) (tbl : List RecRow) : List RecRow :=
  apps.foldl (fun tbl app =>
    if app ∈ ins then tbl
    else if category == "hardware_specific" && !(hwAllows hw subcategory) then tbl
    else upsertRec tbl (candRow category subcategory app now)) tbl

/-- The loop of `generate_recommendations` over a category's
subcategories, in rule-table declaration order. -/
def expandSubcats (ins : List String) (hw : HW) (now category : String)
    (subcats : List (String × List String)) (tbl : List RecRow) : List RecRow :=
  subcats.foldl (fun tbl p => expandApps ins hw now category p.1 p.2 tbl) tbl

/-- One preferred category's expansion: only categories present in
`RECOMMENDATION_RULES` expand; others contribute nothing. -/
def expandCategory (ins : List String) (hw : HW) (now : String)
    (tbl : List RecRow) (category : String) : List RecRow :=
  match List.lookup category RECOMMENDATION_RULES with
  | some subcats => expandSubcats ins hw now category subcats tbl
  | none => tbl

/-- Embedding of the write phase of
`AppRecommender.generate_recommendations`: clear the `recommendations`
table, then expand every preferred category in ranked order; the result
is the final content of the table in rowid order. -/
def generateRecommendations (rows : List InstalledRow) (hw : HW) (now : String) :
    List RecRow :=
  (preferredCategories rows).foldl
    (fun tbl p => expandCategory (installedNames rows) hw now tbl p.1) []

/-- The flat sequence of candidates accepted by one generation pass, in
iteration order, before insert-or-replace deduplication. -/
def acceptedOfApps (ins : List String) (hw : HW) (now category subcategory : String)
    (apps : List String) : List RecRow :=
  apps.filterMap (fun app =>
    if app ∈ ins then none
    else if category == "hardware_specific" && !(hwAllows hw subcategory) then none
    else some (candRow category subcategory app now))

/-- The accepted candidates contributed by one preferred category. -/
def acceptedOfCategory (ins : List String) (hw : HW) (now category : String) :
    List RecRow :=
  match List.lookup category RECOMMENDATION_RULES with
  | some subcats => subcats.flatMap (fun p => acceptedOfApps ins hw now category p.1 p.2)
  | none => []

/-- All candidates accepted by one generation pass, in iteration order. -/
def acceptedSeq (rows : List InstalledRow) (hw : HW) (now : String) : List RecRow :=
  (preferredCategories rows).flatMap
    (fun p => acceptedOfCategory (installedNames rows) hw now p.1)

/-- The acceptance decision for one candidate app, as an option: `none`
when the candidate is skipped (already installed, or hardware-filtered),
`some` of the inserted row otherwise. -/
def acceptStep (ins : List String) (hw : HW) (now category subcategory app : String) :
    Option RecRow :=
  if app ∈ ins then none
  else if category == "hardware_specific" && !(hwAllows hw subcategory) then none
  else some (candRow category subcategory app now)

/-- Helper: the inline loop body of `expandApps` agrees with matching on
the acceptance decision. -/
theorem expandApps_step_eq (ins : List String) (hw : HW)
    (now category subcategory : String) (tbl : List RecRow) (app : String) :
    (if app ∈ ins then tbl
     else if category == "hardware_specific" && !(hwAllows hw subcategory) then tbl
     else upsertRec tbl (candRow category subcategory app now)) =
    (match acceptStep ins hw now category subcategory app with
     | none => tbl
     | some r => upsertRec tbl r) := by
  unfold acceptStep
  by_cases h1 : app ∈ ins
  · simp [h1]
  · by_cases h2 : (category == "hardware_specific" && !(hwAllows hw subcategory)) = true
    · simp [h1, h2]
    · simp [h1, h2]

/-- Helper: the accepted candidates of one rule are the `filterMap` of
the acceptance decision. -/
theorem acceptedOfApps_eq_filterMap (ins : List String) (hw : HW)
    (now category subcategory : String) (apps : List String) :
    acceptedOfApps ins hw now category subcategory apps =
      apps.filterMap (acceptStep ins hw now category subcategory) := rfl

/-- Helper: folding the match-form step is folding the upsert over the
accepted candidates. -/
theorem foldl_match_filterMap {α : Type} (f : α → Option RecRow) (l : List α)
    (tbl : List RecRow) :
    l.foldl (fun t a => match f a with | none => t | some r => upsertRec t r) tbl =
      (l.filterMap f).foldl upsertRec tbl := by
  induction l generalizing tbl with
  | nil => rfl
  | cons a l ih => cases hf : f a <;>
      simp [List.foldl_cons, List.filterMap_cons, hf, ih]

/-- Helper: fusion of the innermost loop. -/
theorem expandApps_eq_foldl (ins : List String) (hw : HW)
    (now category subcategory : String) (apps : List String) (tbl : List RecRow) :
    expandApps ins hw now category subcategory apps tbl =
      (acceptedOfApps ins hw now category subcategory apps).foldl upsertRec tbl := by
  rw [acceptedOfApps_eq_filterMap, ← foldl_match_filterMap]
  unfold expandApps
  congr 1
  funext t a
  exact expandApps_step_eq ins hw now category subcategory t a

/-- Helper: fusion of the subcategory loop. -/
theorem expandSubcats_eq_foldl (ins : List String) (hw : HW) (now category : String)
    (subcats : List (String × List String)) (tbl : List RecRow) :
    expandSubcats ins hw now category subcats tbl =
      (subcats.flatMap (fun p => acceptedOfApps ins hw now category p.1 p.2)).foldl
        upsertRec tbl := by
  induction subcats generalizing tbl with
  | nil => rfl
  | cons p ps ih =>
      show expandSubcats ins hw now category ps
        (expandApps ins hw now category p.1 p.2 tbl) = _
      rw [ih, expandApps_eq_foldl, List.flatMap_cons, List.foldl_append]

/-- Helper: fusion of one category's expansion. -/
theorem expandCategory_eq_foldl (ins : List String) (hw : HW) (now : String)
    (tbl : List RecRow) (category : String) :
    expandCategory ins hw now tbl category =
      (acceptedOfCategory ins hw now category).foldl upsertRec tbl := by
  unfold expandCategory acceptedOfCategory
  cases List.lookup category RECOMMENDATION_RULES with
  | none => rfl
  | some subcats => exact expandSubcats_eq_foldl ins hw now category subcats tbl

/-- Helper: the generation pass is the fold of insert-or-replace over
the accepted candidate sequence, starting from the cleared table. -/
theorem generateRecommendations_eq_foldl (rows : List InstalledRow) (hw : HW)
    (now : String) :
    generateRecommendations rows hw now = (acceptedSeq rows hw now).foldl upsertRec [] := by
  unfold generateRecommendations acceptedSeq
  generalize preferredCategories rows = cats
  suffices h : ∀ init : List RecRow, cats.foldl
      (fun tbl p => expandCategory (installedNames rows) hw now tbl p.1) init =
      (cats.flatMap (fun p => acceptedOfCategory (installedNames rows) hw now p.1)).foldl
        upsertRec init from h []
  induction cats with
  | nil => intro init; rfl
  | cons p ps ih =>
      intro init
      rw [List.foldl_cons, List.flatMap_cons, List.foldl_append, ih,
        expandCategory_eq_foldl]

/-- Helper: membership after folding upserts comes from the initial
table or the inserted sequence. -/
theorem mem_foldl_upsert (l : List RecRow) (init : List RecRow) (r : RecRow)
    (h : r ∈ l.foldl upsertRec init) : r ∈ init ∨ r ∈ l := by
  induction l generalizing init with
  | nil => exact Or.inl h
  | cons a l ih =>
      rcases ih (upsertRec init a) h with h1 | h1
      · unfold upsertRec at h1
        rcases List.mem_append.mp h1 with h2 | h2
        · exact Or.inl (List.mem_of_mem_filter h2)
        · rcases List.mem_singleton.mp h2 with rfl
          exact Or.inr (by simp)
      · exact Or.inr (List.mem_cons_of_mem _ h1)

/-- The table invariant of the UNIQUE `app_name` column. -/
def distinctNames (tbl : List RecRow) : Prop :=
  tbl.Pairwise (fun a b => a.app_name ≠ b.app_name)

/-- Helper: insert-or-replace preserves name uniqueness. -/
theorem distinctNames_upsert (tbl : List RecRow) (a : RecRow)
    (h : distinctNames tbl) : distinctNames (upsertRec tbl a) := by
  unfold distinctNames upsertRec
  rw [List.pairwise_append]
  refine ⟨h.filter _, List.pairwise_singleton _ _, ?_⟩
  intro x hx y hy
  rcases List.mem_singleton.mp hy with rfl
  have := List.of_mem_filter hx
  simpa using this

/-- Helper: folding upserts from a name-unique table stays name-unique. -/
theorem distinctNames_foldl_upsert (l : List RecRow) (init : List RecRow)
    (h : distinctNames init) : distinctNames (l.foldl upsertRec init) := by
  induction l generalizing init with
  | nil => exact h
  | cons a l ih => exact ih _ (distinctNames_upsert init a h)

/-- The row stored under an app name, modelling
`SELECT ... WHERE app_name = ?` on the UNIQUE key. -/
def rowFor (name : String) (tbl : List RecRow) : Option RecRow :=
  tbl.find? (fun r => r.app_name == name)

/-- Helper: a `find?` over a filter whose predicate is implied keeps the
first match. -/
theorem find?_filter_imp {α : Type} (p keep : α → Bool) (l : List α)
    (h : ∀ x, p x = true → keep x = true) :
    (l.filter keep).find? p = l.find? p := by
  induction l with
  | nil => rfl
  | cons a l ih =>
      by_cases hp : p a = true
      · have hk := h a hp
        simp [List.filter_cons, hk, List.find?_cons, hp, ih]
      · have hp' : p a = false := by
          cases hpa : p a
          · rfl
          · exact absurd hpa hp
        cases hk : keep a
        · simp [List.filter_cons, hk, List.find?_cons, hp', ih]
        · simp [List.filter_cons, hk, List.find?_cons, hp', ih]

/-- Helper: lookup after insert-or-replace. -/
theorem rowFor_upsert (tbl : List RecRow) (a : RecRow) (n : String) :
    rowFor n (upsertRec tbl a) = if a.app_name = n then some a else rowFor n tbl := by
  unfold rowFor upsertRec
  rw [List.find?_append]
  by_cases h : a.app_name = n
  · subst h
    have hnone : (tbl.filter (fun q => !(q.app_name == a.app_name))).find?
        (fun r => r.app_name == a.app_name) = none := by
      rw [List.find?_eq_none]
      intro x hx
      have := List.of_mem_filter hx
      simpa using this
    simp [hnone, List.find?_cons]
  · rw [if_neg h]
    have hsingle : ([a].find? (fun r => r.app_name == n)) = none := by
      simp [List.find?_cons, h]
    rw [hsingle, Option.or_none]
    apply find?_filter_imp
    intro x hx
    have hxn : x.app_name = n := by simpa using hx
    have hne : (x.app_name == a.app_name) = false := by
      rw [hxn]
      simp only [beq_eq_false_iff_ne]
      exact fun e => h e.symm
    simp [hne]

/-- Helper: the stored row after a fold of upserts is the last inserted
row with that name, or the initial table's row when none was inserted. -/
theorem rowFor_foldl_upsert (l : List RecRow) (init : List RecRow) (n : String) :
    rowFor n (l.foldl upsertRec init) = (rowFor n l.reverse).or (rowFor n init) := by
  induction l generalizing init with
  | nil => simp [rowFor]
  | cons a l ih =>
      rw [List.foldl_cons, ih, List.reverse_cons]
      have happ : rowFor n (l.reverse ++ [a]) = (rowFor n l.reverse).or (rowFor n [a]) := by
        unfold rowFor
        exact List.find?_append
      rw [happ, Option.or_assoc, rowFor_upsert]
      by_cases h : a.app_name = n
      · have hsingle : rowFor n [a] = some a := by
          unfold rowFor
          simp [List.find?_cons, h]
        rw [if_pos h, hsingle, Option.or_some]
      · have hsingle : rowFor n [a] = none := by
          unfold rowFor
          simp [List.find?_cons, h]
        rw [if_neg h, hsingle, Option.none_or]

/-- Helper: in a name-unique table, the row stored under the name of a
member is that member. -/
theorem rowFor_of_mem_distinct (tbl : List RecRow) (h : distinctNames tbl)
    (r : RecRow) (hr : r ∈ tbl) : rowFor r.app_name tbl = some r := by
  induction tbl with
  | nil => cases hr
  | cons a t ih =>
      rcases List.mem_cons.mp hr with rfl | hr
      · unfold rowFor
        simp [List.find?_cons]
      · have hne : a.app_name ≠ r.app_name := (List.pairwise_cons.mp h).1 r hr
        unfold rowFor
        rw [List.find?_cons]
        have : (a.app_name == r.app_name) = false := by simpa using hne
        rw [this]
        exact ih (List.pairwise_cons.mp h).2 hr

/-- Helper: structure of every accepted candidate: it is generated from
a preferred category's rule entry, is not installed, passed the hardware
filter, and is exactly the `candRow` of its rule. -/
theorem mem_acceptedSeq (rows : List InstalledRow) (hw : HW) (now : String)
    (a : RecRow) (h : a ∈ acceptedSeq rows hw now) :
    ∃ c subcats sc apps,
      (∃ s, (c, s) ∈ preferredCategories rows) ∧
      List.lookup c RECOMMENDATION_RULES = some subcats ∧
      (sc, apps) ∈ subcats ∧
      a.app_name ∈ apps ∧
      a.app_name ∉ installedNames rows ∧
      (c == "hardware_specific" && !(hwAllows hw sc)) = false ∧
      a = candRow c sc a.app_name now := by
  unfold acceptedSeq at h
  rw [List.mem_flatMap] at h
  obtain ⟨p, hp, ha⟩ := h
  unfold acceptedOfCategory at ha
  cases hlk : List.lookup p.1 RECOMMENDATION_RULES with
  | none =>
      rw [hlk] at ha
      cases ha
  | some subcats =>
      rw [hlk] at ha
      rw [List.mem_flatMap] at ha
      obtain ⟨q, hq, ha⟩ := ha
      unfold acceptedOfApps at ha
      rw [List.mem_filterMap] at ha
      obtain ⟨app, happ, hsome⟩ := ha
      by_cases h1 : app ∈ installedNames rows
      · rw [if_pos h1] at hsome
        cases hsome
      · rw [if_neg h1] at hsome
        by_cases h2 : (p.1 == "hardware_specific" && !(hwAllows hw q.1)) = true
        · rw [if_pos h2] at hsome
          cases hsome
        · rw [if_neg h2] at hsome
          have ha' : a = candRow p.1 q.1 app now := (Option.some.inj hsome).symm
          have hname : a.app_name = app := by rw [ha']; rfl
          refine ⟨p.1, subcats, q.1, q.2, ⟨p.2, hp⟩, hlk, hq, ?_, ?_, ?_, ?_⟩
          · rw [hname]; exact happ
          · rw [hname]; exact h1
          · cases hb : (p.1 == "hardware_specific" && !(hwAllows hw q.1))
            · rfl
            · exact absurd hb h2
          · rw [ha']
            rfl

/-- Claim C2: no recommendation produced by a generation pass names an
app in the installed set read at the start of the pass; moreover the
inner expansion of the development/python rule with installed set
containing only `vscode` accepts exactly `pycharm` and `jupyter`. -/
theorem generate_excludes_installed (rows : List InstalledRow) (hw : HW) (now : String) :
    (∀ r ∈ generateRecommendations rows hw now, r.app_name ∉ installedNames rows) ∧
    (acceptedOfApps ["vscode"] hw now "development" "python"
      ["vscode", "pycharm", "jupyter"]).map (fun r => r.app_name) =
      ["pycharm", "jupyter"] := by
  constructor
  · intro r hr
    rw [generateRecommendations_eq_foldl] at hr
    rcases mem_foldl_upsert _ _ _ hr with h1 | h1
    · cases h1
    · obtain ⟨_, _, _, _, _, _, _, _, hnotins, _, _⟩ := mem_acceptedSeq rows hw now r h1
      exact hnotins
  · simp [acceptedOfApps, candRow, List.filterMap_cons]

/-- A concrete hardware-probe answer used by witnesses. -/
def hwNone : HW := ⟨false, false, false, false⟩

/-- Witness for C2: with only `vim` installed, `pycharm` is recommended
by the development/python rule and is indeed not installed. -/
theorem generate_excludes_installed_witness :
    (candRow "development" "python" "pycharm" "T").app_name ∉
      installedNames [vimRow none 3] :=
  (generate_excludes_installed [vimRow none 3] hwNone "T").1
    (candRow "development" "python" "pycharm" "T") (by decide)

/-- Claim C3: within one generation pass the stored recommendation set
is keyed by app name with insert-or-replace semantics: the final table
holds at most one row per app name; each stored row equals the last
accepted occurrence for its name, carrying that occurrence's category, a
reason string of exactly the generated form
`Recommended for category/subcategory based on your usage patterns`, and
score 0.8. -/
theorem generate_last_write_wins (rows : List InstalledRow) (hw : HW) (now : String) :
    distinctNames (generateRecommendations rows hw now) ∧
    ∀ r ∈ generateRecommendations rows hw now,
      rowFor r.app_name ((acceptedSeq rows hw now).reverse) = some r ∧
      r.score = defaultScore ∧ defaultScore = 0.8 ∧
      ∃ sc, r.reason = "Recommended for " ++ r.category ++ "/" ++ sc ++
        " based on your usage patterns" := by
  have hdn : distinctNames (generateRecommendations rows hw now) := by
    rw [generateRecommendations_eq_foldl]
    exact distinctNames_foldl_upsert _ _ List.Pairwise.nil
  refine ⟨hdn, ?_⟩
  intro r hr
  have hrow : rowFor r.app_name (generateRecommendations rows hw now) = some r :=
    rowFor_of_mem_distinct _ hdn r hr
  have hfold := rowFor_foldl_upsert (acceptedSeq rows hw now) [] r.app_name
  rw [← generateRecommendations_eq_foldl] at hfold
  have hnil : rowFor r.app_name ([] : List RecRow) = none := rfl
  rw [hnil, Option.or_none] at hfold
  have hmem : r ∈ acceptedSeq rows hw now := by
    rw [generateRecommendations_eq_foldl] at hr
    rcases mem_foldl_upsert _ _ _ hr with h | h
    · cases h
    · exact h
  obtain ⟨c, subcats, sc, apps, _, _, _, _, _, _, heq⟩ :=
    mem_acceptedSeq rows hw now r hmem
  refine ⟨by rw [← hfold]; exact hrow, ?_, defaultScore_eq, ⟨sc, ?_⟩⟩
  · rw [heq]
    rfl
  · rw [heq]
    rfl

/-- Witness for C3: with only `vim` installed, `vscode` is accepted by
the development python, web and rust rules in that order; the stored row
is the last accepted occurrence, the one from development/rust. -/
theorem generate_last_write_wins_witness :
    rowFor "vscode" ((acceptedSeq [vimRow none 3] hwNone "T").reverse) =
      some (candRow "development" "rust" "vscode" "T") :=
  ((generate_last_write_wins [vimRow none 3] hwNone "T").2
    (candRow "development" "rust" "vscode" "T") (by decide)).1

/-- Helper: case analysis of a successful rule-table lookup. -/
theorem lookup_rules_cases (c : String) (v : List (String × List String))
    (h : List.lookup c RECOMMENDATION_RULES = some v) :
    (c = "development" ∧ v = DEV_RULES) ∨ (c = "gaming" ∧ v = GAMING_RULES) ∨
    (c = "multimedia" ∧ v = MULTIMEDIA_RULES) ∨
    (c = "hardware_specific" ∧ v = HARDWARE_RULES) := by
  by_cases h1 : c = "development"
  · subst h1
    simp [RECOMMENDATION_RULES, List.lookup] at h
    exact Or.inl ⟨rfl, h.symm⟩
  · by_cases h2 : c = "gaming"
    · subst h2
      simp [RECOMMENDATION_RULES, List.lookup] at h
      exact Or.inr (Or.inl ⟨rfl, h.symm⟩)
    · by_cases h3 : c = "multimedia"
      · subst h3
        simp [RECOMMENDATION_RULES, List.lookup] at h
        exact Or.inr (Or.inr (Or.inl ⟨rfl, h.symm⟩))
      · by_cases h4 : c = "hardware_specific"
        · subst h4
          simp [RECOMMENDATION_RULES, List.lookup] at h
          exact Or.inr (Or.inr (Or.inr ⟨rfl, h.symm⟩))
        · exfalso
          have hb1 : (c == "development") = false := by
            simp only [beq_eq_false_iff_ne]; exact h1
          have hb2 : (c == "gaming") = false := by
            simp only [beq_eq_false_iff_ne]; exact h2
          have hb3 : (c == "multimedia") = false := by
            simp only [beq_eq_false_iff_ne]; exact h3
          have hb4 : (c == "hardware_specific") = false := by
            simp only [beq_eq_false_iff_ne]; exact h4
          simp [RECOMMENDATION_RULES, List.lookup, hb1, hb2, hb3, hb4] at h

/-- Helper: a decided cross-table disjointness gives membership
exclusion. -/
theorem cross_disjoint {α : Type} [DecidableEq α]
    (t1 t2 : List (String × List α))
    (h : t1.all (fun p => t2.all (fun q =>
      p.2.all (fun x => !(decide (x ∈ q.2))))) = true) :
    ∀ p q, p ∈ t1 → q ∈ t2 → ∀ x, x ∈ p.2 → x ∉ q.2 := by
  intro p q hp hq x hxp hxq
  have h1 := List.all_eq_true.mp (List.all_eq_true.mp h p hp) q hq
  have h2 := List.all_eq_true.mp h1 x hxp
  simp at h2
  exact h2 hxq

/-- Helper: when two entries of a table share an element, a decided
pairwise-disjointness-or-same-key certificate forces equal keys. -/
theorem key_of_shared {α : Type} [DecidableEq α] (tbl : List (String × List α))
    (h : tbl.all (fun p => tbl.all (fun q =>
      (p.1 == q.1) || p.2.all (fun x => !(decide (x ∈ q.2))))) = true) :
    ∀ p q, p ∈ tbl → q ∈ tbl → ∀ x, x ∈ p.2 → x ∈ q.2 → p.1 = q.1 := by
  intro p q hp hq x hxp hxq
  have h1 := List.all_eq_true.mp (List.all_eq_true.mp h p hp) q hq
  rw [Bool.or_eq_true] at h1
  rcases h1 with h2 | h2
  · exact beq_iff_eq.mp h2
  · have h3 := List.all_eq_true.mp h2 x hxp
    simp at h3
    exact absurd hxq h3

/-- Helper: a generated recommendation whose name lies in some hardware
rule list can only have been accepted with that subcategory's probe
answering true. -/
theorem gen_hw_guard (rows : List InstalledRow) (hw : HW) (now : String) :
    ∀ r ∈ generateRecommendations rows hw now, ∀ sc bad,
      (sc, bad) ∈ HARDWARE_RULES → r.app_name ∈ bad → hwAllows hw sc = true := by
  intro r hr sc bad hscbad hbad
  rw [generateRecommendations_eq_foldl] at hr
  rcases mem_foldl_upsert _ _ _ hr with h0 | h0
  · cases h0
  obtain ⟨c, subcats, sc', apps, _, hlk, hsub, happ, _, hguard, _⟩ :=
    mem_acceptedSeq rows hw now r h0
  rcases lookup_rules_cases c subcats hlk with ⟨hc, hv⟩ | ⟨hc, hv⟩ | ⟨hc, hv⟩ | ⟨hc, hv⟩
  · subst hv
    exact absurd hbad
      (cross_disjoint DEV_RULES HARDWARE_RULES (by decide)
        (sc', apps) (sc, bad) hsub hscbad r.app_name happ)
  · subst hv
    exact absurd hbad
      (cross_disjoint GAMING_RULES HARDWARE_RULES (by decide)
        (sc', apps) (sc, bad) hsub hscbad r.app_name happ)
  · subst hv
    exact absurd hbad
      (cross_disjoint MULTIMEDIA_RULES HARDWARE_RULES (by decide)
        (sc', apps) (sc, bad) hsub hscbad r.app_name happ)
  · subst hv
    subst hc
    simp only [beq_self_eq_true, Bool.true_and, Bool.not_eq_false'] at hguard
    have hkey : sc' = sc :=
      key_of_shared HARDWARE_RULES (by decide)
        (sc', apps) (sc, bad) hsub hscbad r.app_name happ hbad
    rw [← hkey]
    exact hguard

/-- Claim C4: each probe converts failure (`none` input) to the answer
false and never raises; and whenever a probe answers false, no candidate
of that probe's hardware rule list appears in the generated output. -/
theorem hardware_filter_spec (rows : List InstalledRow) (hw : HW) (now : String) :
    (hasAmdGpu none = false ∧ hasNvidiaGpu none = false ∧
      hasIntelGpu none = false ∧ isLaptop none = false) ∧
    (hw.amd = false → ∀ r ∈ generateRecommendations rows hw now,
      r.app_name ∉ ["corectrl", "radeontop", "rocm-smi"]) ∧
    (hw.nvidia = false → ∀ r ∈ generateRecommendations rows hw now,
      r.app_name ∉ ["nvidia-settings", "nvtop", "gwe"]) ∧
    (hw.intel = false → ∀ r ∈ generateRecommendations rows hw now,
      r.app_name ∉ ["intel-gpu-tools", "libva-utils"]) ∧
    (hw.laptop = false → ∀ r ∈ generateRecommendations rows hw now,
      r.app_name ∉ ["powertop", "tlp", "auto-cpufreq", "battery-monitor"]) := by
  refine ⟨⟨rfl, rfl, rfl, rfl⟩, ?_, ?_, ?_, ?_⟩
  · intro hfalse r hr hbad
    have hg := gen_hw_guard rows hw now r hr "amd_gpu" _ (by decide) hbad
    simp [hwAllows, hfalse] at hg
  · intro hfalse r hr hbad
    have hg := gen_hw_guard rows hw now r hr "nvidia_gpu" _ (by decide) hbad
    simp [hwAllows, hfalse] at hg
  · intro hfalse r hr hbad
    have hg := gen_hw_guard rows hw now r hr "intel_gpu" _ (by decide) hbad
    simp [hwAllows, hfalse] at hg
  · intro hfalse r hr hbad
    have hg := gen_hw_guard rows hw now r hr "laptop" _ (by decide) hbad
    simp [hwAllows, hfalse] at hg

/-- Witness for C4: a hardware-preferring database on a laptop without
an AMD GPU recommends `powertop` from the laptop rule, whose name indeed
lies outside the AMD rule list. -/
theorem hardware_filter_spec_witness :
    (candRow "hardware_specific" "laptop" "powertop" "T").app_name ∉
      ["corectrl", "radeontop", "rocm-smi"] :=
  (hardware_filter_spec [appRow "x" "hardware_specific" 1]
      ⟨false, false, false, true⟩ "T").2.1 rfl
    (candRow "hardware_specific" "laptop" "powertop" "T") (by decide)

/-- Helper: the classifier's range is the eight table categories plus
the sentinel `"other"`. -/
theorem determineCategory_range (name : String) :
    determineCategory name ∈
      ["development", "graphic_design", "productivity", "multimedia", "gaming",
       "system_tools", "networking", "security", "other"] := by
  unfold determineCategory
  cases hfind : CATEGORIES.find? (catMatches name) with
  | none => simp
  | some p =>
      have hp : p ∈ CATEGORIES := List.mem_of_find?_eq_some hfind
      have hmem : p.1 ∈ CATEGORIES.map Prod.fst := List.mem_map_of_mem _ hp
      have hmap : CATEGORIES.map Prod.fst =
          ["development", "graphic_design", "productivity", "multimedia", "gaming",
           "system_tools", "networking", "security"] := rfl
      rw [hmap] at hmem
      simp only [List.mem_cons, List.mem_singleton] at hmem ⊢
      tauto

/-- Helper: every key of the category-total association list is the
category of some installed row. -/
theorem key_of_categoryScores (rows : List InstalledRow) (p : String × Nat)
    (hp : p ∈ categoryScores rows) : ∃ r ∈ rows, r.category = some p.1 := by
  suffices h : ∀ (rs : List InstalledRow) (acc : List (String × Nat)) (q : String × Nat),
      q ∈ rs.foldl (fun acc r =>
        match r.category with
        | none => acc
        | some cat => if cat.isEmpty then acc else bump acc cat r.usage_count) acc →
      q.1 ∈ acc.map Prod.fst ∨ ∃ r ∈ rs, r.category = some q.1 by
    rcases h rows [] p hp with h1 | h1
    · simp at h1
    · exact h1
  intro rs
  induction rs with
  | nil =>
      intro acc q hq
      exact Or.inl (List.mem_map_of_mem _ hq)
  | cons r rs ih =>
      intro acc q hq
      rw [List.foldl_cons] at hq
      cases hcat : r.category with
      | none =>
          rw [hcat] at hq
          dsimp only at hq
          rcases ih acc q hq with h1 | h1
          · exact Or.inl h1
          · obtain ⟨r', hr', hc'⟩ := h1
            exact Or.inr ⟨r', List.mem_cons_of_mem _ hr', hc'⟩
      | some cat =>
          rw [hcat] at hq
          dsimp only at hq
          by_cases hemp : cat.isEmpty
          · rw [if_pos hemp] at hq
            rcases ih acc q hq with h1 | h1
            · exact Or.inl h1
            · obtain ⟨r', hr', hc'⟩ := h1
              exact Or.inr ⟨r', List.mem_cons_of_mem _ hr', hc'⟩
          · rw [if_neg hemp] at hq
            rcases ih _ q hq with h1 | h1
            · rw [List.mem_map] at h1
              obtain ⟨e, he, hfst⟩ := h1
              rcases key_of_bump acc cat r.usage_count e he with h2 | h2
              · rw [← hfst]
                exact Or.inl h2
              · refine Or.inr ⟨r, by simp, ?_⟩
                rw [hcat, ← hfst, h2]
            · obtain ⟨r', hr', hc'⟩ := h1
              exact Or.inr ⟨r', List.mem_cons_of_mem _ hr', hc'⟩

/-- The full list of app names reachable only through the
`hardware_specific` rule table. -/
def hardwareRuleApps : List String :=
  ["corectrl", "radeontop", "rocm-smi", "nvidia-settings", "nvtop", "gwe",
   "intel-gpu-tools", "libva-utils", "powertop", "tlp", "auto-cpufreq",
   "battery-monitor"]

/-- Claim C5: when every installed-app category was assigned by the
core's own classifier, the pass can never expand the hardware rules: the
classifier's range is the eight keyword-table names plus `"other"`, it
never returns `"hardware_specific"`, and hence no generated
recommendation carries the `hardware_specific` category or one of the
hardware rule apps. -/
theorem classifier_pipeline_no_hardware (rows : List InstalledRow) (hw : HW)
    (now : String)
    (h : ∀ r ∈ rows, ∃ nm, r.category = some (determineCategory nm)) :
    (∀ nm, determineCategory nm ∈
      ["development", "graphic_design", "productivity", "multimedia", "gaming",
       "system_tools", "networking", "security", "other"]) ∧
    (∀ nm, determineCategory nm ≠ "hardware_specific") ∧
    (∀ rec ∈ generateRecommendations rows hw now,
      rec.category ≠ "hardware_specific") ∧
    (∀ rec ∈ generateRecommendations rows hw now,
      rec.app_name ∉ hardwareRuleApps) := by
  have hne : ∀ nm, determineCategory nm ≠ "hardware_specific" := by
    intro nm hcontra
    have hr := determineCategory_range nm
    rw [hcontra] at hr
    exact absurd hr (by decide)
  have hstruct : ∀ rec ∈ generateRecommendations rows hw now,
      ∃ c subcats sc apps,
        List.lookup c RECOMMENDATION_RULES = some subcats ∧
        (sc, apps) ∈ subcats ∧ rec.app_name ∈ apps ∧
        rec.category = c ∧ c ≠ "hardware_specific" := by
    intro rec hr
    rw [generateRecommendations_eq_foldl] at hr
    rcases mem_foldl_upsert _ _ _ hr with h0 | h0
    · cases h0
    obtain ⟨c, subcats, sc, apps, ⟨s, hpref⟩, hlk, hsub, happ, _, _, heq⟩ :=
      mem_acceptedSeq rows hw now rec h0
    have hscore : (c, s) ∈ categoryScores rows :=
      (List.mem_insertionSort _).mp hpref
    obtain ⟨r', hr', hc'⟩ := key_of_categoryScores rows (c, s) hscore
    obtain ⟨nm, hnm⟩ := h r' hr'
    rw [hc'] at hnm
    have hc : c = determineCategory nm := Option.some.inj hnm
    refine ⟨c, subcats, sc, apps, hlk, hsub, happ, by rw [heq]; rfl, ?_⟩
    rw [hc]
    exact hne nm
  refine ⟨determineCategory_range, hne, ?_, ?_⟩
  · intro rec hr
    obtain ⟨c, _, _, _, _, _, _, hcat, hcne⟩ := hstruct rec hr
    rw [hcat]
    exact hcne
  · intro rec hr hbad
    obtain ⟨c, subcats, sc, apps, hlk, hsub, happ, _, hcne⟩ := hstruct rec hr
    rcases lookup_rules_cases c subcats hlk with ⟨hc, hv⟩ | ⟨hc, hv⟩ | ⟨hc, hv⟩ | ⟨hc, hv⟩
    · subst hv
      exact cross_disjoint DEV_RULES [("all", hardwareRuleApps)] (by decide)
        (sc, apps) ("all", hardwareRuleApps) hsub (by simp) rec.app_name happ hbad
    · subst hv
      exact cross_disjoint GAMING_RULES [("all", hardwareRuleApps)] (by decide)
        (sc, apps) ("all", hardwareRuleApps) hsub (by simp) rec.app_name happ hbad
    · subst hv
      exact cross_disjoint MULTIMEDIA_RULES [("all", hardwareRuleApps)] (by decide)
        (sc, apps) ("all", hardwareRuleApps) hsub (by simp) rec.app_name happ hbad
    · exact absurd hc hcne

/-- Witness for C5: a database whose single row was classified by the
core (category of `vim`) generates a recommendation set free of the
`hardware_specific` category; checked on the row produced by the
development/python rule. -/
theorem classifier_pipeline_no_hardware_witness :
    (candRow "development" "python" "pycharm" "T").category ≠ "hardware_specific" :=
  (classifier_pipeline_no_hardware [vimRow none 3] hwNone "T"
      (fun r hr => ⟨"vim", by
        rcases List.mem_singleton.mp hr with rfl
        decide⟩)).2.2.1
    (candRow "development" "python" "pycharm" "T") (by decide)

/-- A minimal model of one SQLite connection over the `recommendations`
table: `committed` is what other connections read; `tx` is the working
copy of the implicitly opened transaction, absent when no transaction is
open. Uncommitted work is invisible to readers and is rolled back when
the connection is abandoned. -/
structure TxStore where
  committed : List RecRow
  tx : Option (List RecRow)
deriving Repr

/-- Execute one write statement: the first DML statement implicitly
opens a transaction on the committed state; later ones act on the
pending copy. -/
def TxStore.exec (s : TxStore) (w : List RecRow → List RecRow) : TxStore :=
  match s.tx with
  | none => { committed := s.committed, tx := some (w s.committed) }
  | some p => { committed := s.committed, tx := some (w p) }

/-- Commit: publish the pending copy. -/
def TxStore.commit (s : TxStore) : TxStore :=
  match s.tx with
  | none => s
  | some p => { committed := p, tx := none }

/-- What a concurrent reader of the store observes. -/
def TxStore.read (s : TxStore) : List RecRow := s.committed

/-- The write statements issued by one generation pass, in order: the
`DELETE FROM recommendations`, then one `INSERT OR REPLACE` per accepted
candidate. The single `conn.commit()` of the pass follows them. -/
def passWrites (rows : List InstalledRow) (hw : HW) (now : String) :
    List (List RecRow → List RecRow) :=
  (fun _ => []) :: (acceptedSeq rows hw now).map (fun a => fun tbl => upsertRec tbl a)

/-- One generation pass against the store, with failure injection:
`failAt = some k` aborts the pass after its first `k` write statements
(the bare `except` of `generate_recommendations` does not commit, and
the abandoned transaction is rolled back); `failAt = none` runs every
write and then commits. -/
def genPass (s : TxStore) (rows : List InstalledRow) (hw : HW) (now : String)
    (failAt : Option Nat) : TxStore :=
  match failAt with
  | none => ((passWrites rows hw now).foldl TxStore.exec s).commit
  | some k => ((passWrites rows hw now).take k).foldl TxStore.exec s

/-- Helper: executing writes never changes the committed state. -/
theorem committed_foldl_exec (ws : List (List RecRow → List RecRow)) (s : TxStore) :
    (ws.foldl TxStore.exec s).committed = s.committed := by
  induction ws generalizing s with
  | nil => rfl
  | cons w ws ih =>
      rw [List.foldl_cons, ih]
      cases h : s.tx <;> simp [TxStore.exec, h]

/-- Helper: with an open transaction, executed writes chain on the
pending copy. -/
theorem tx_foldl_exec (ws : List (List RecRow → List RecRow)) (s : TxStore)
    (p : List RecRow) (h : s.tx = some p) :
    (ws.foldl TxStore.exec s).tx = some (ws.foldl (fun t w => w t) p) := by
  induction ws generalizing s p with
  | nil => exact h
  | cons w ws ih =>
      rw [List.foldl_cons, List.foldl_cons]
      exact ih _ _ (by simp [TxStore.exec, h])

/-- Claim C6: the generation pass replaces the stored recommendation set
atomically: a reader observes the old set for a pass failing at any
point before the commit, the freshly generated set after a completed
pass, and never any mixture of the two. -/
theorem genPass_atomic (old : List RecRow) (rows : List InstalledRow) (hw : HW)
    (now : String) (failAt : Option Nat) :
    ((genPass ⟨old, none⟩ rows hw now failAt).read = old ∨
      (genPass ⟨old, none⟩ rows hw now failAt).read =
        generateRecommendations rows hw now) ∧
    (∀ k, failAt = some k → (genPass ⟨old, none⟩ rows hw now failAt).read = old) ∧
    (failAt = none → (genPass ⟨old, none⟩ rows hw now failAt).read =
      generateRecommendations rows hw now) := by
  have hsome : ∀ k, (genPass ⟨old, none⟩ rows hw now (some k)).read = old := by
    intro k
    show (((passWrites rows hw now).take k).foldl TxStore.exec ⟨old, none⟩).committed = _
    rw [committed_foldl_exec]
  have hnone : (genPass ⟨old, none⟩ rows hw now none).read =
      generateRecommendations rows hw now := by
    show (((passWrites rows hw now).foldl TxStore.exec ⟨old, none⟩).commit).committed = _
    rw [passWrites, List.foldl_cons]
    have hfirst : (TxStore.exec ⟨old, none⟩ (fun _ => [])).tx = some [] := rfl
    have hcc : ∀ (s : TxStore) (x : List RecRow), s.tx = some x →
        s.commit.committed = x := by
      intro s x hx
      simp [TxStore.commit, hx]
    rw [hcc _ _ (tx_foldl_exec _ _ [] hfirst), List.foldl_map,
      generateRecommendations_eq_foldl]
  refine ⟨?_, fun k hk => by rw [hk]; exact hsome k, fun hk => by rw [hk]; exact hnone⟩
  cases failAt with
  | none => exact Or.inr hnone
  | some k => exact Or.inl (hsome k)

/-- Witness for C6: a pass over an empty installed table that fails
right after its DELETE statement leaves the previously committed row
visible to readers. -/
theorem genPass_atomic_witness :
    (genPass ⟨[candRow "development" "rust" "vscode" "T"], none⟩ [] hwNone "U"
      (some 1)).read = [candRow "development" "rust" "vscode" "T"] :=
  (genPass_atomic [candRow "development" "rust" "vscode" "T"] [] hwNone "U"
    (some 1)).2.1 1 rfl

/-- The `ORDER BY score DESC` read order: a stable descending sort of
the table in rowid (insertion) order, so equal scores keep insertion
order. -/
def recSortDesc (tbl : List RecRow) : List RecRow :=
  List.insertionSort (fun a b => b.score ≤ a.score) tbl

/-- Embedding of `AppRecommender.get_top_recommendations`: the sorted
read truncated by `LIMIT ?`. -/
def topRecommendations (tbl : List RecRow) (limit : Nat) : List RecRow :=
  (recSortDesc tbl).take limit

/-- The argparse default of the `--limit` flag in `main`. -/
def cliDefaultLimit : Nat := 10

/-- Claim C7: reading the top `n` recommendations from a stored table
returns exactly `min n (number of stored rows)` entries, sorted by score
descending with equal-score entries kept in insertion order, each
returned row (score included) being exactly a stored row; `n = 0`
returns the empty sequence, and the CLI default limit is 10. -/
theorem top_recommendations_spec (tbl : List RecRow) (n : Nat) :
    (topRecommendations tbl n).length = min n tbl.length ∧
    (topRecommendations tbl n).Pairwise (fun a b => b.score ≤ a.score) ∧
    (∀ a b : RecRow, a.score = b.score → List.Sublist [a, b] tbl →
      List.Sublist [a, b] (recSortDesc tbl)) ∧
    (∀ r ∈ topRecommendations tbl n, r ∈ tbl) ∧
    topRecommendations tbl 0 = [] ∧
    cliDefaultLimit = 10 := by
  refine ⟨?_, ?_, ?_, ?_, rfl, rfl⟩
  · unfold topRecommendations
    rw [List.length_take]
    unfold recSortDesc
    rw [List.length_insertionSort]
  · haveI : IsTotal RecRow (fun a b => b.score ≤ a.score) :=
      ⟨fun a b => le_total b.score a.score⟩
    haveI : IsTrans RecRow (fun a b => b.score ≤ a.score) :=
      ⟨fun _ _ _ hab hbc => le_trans hbc hab⟩
    exact (List.sorted_insertionSort _ tbl).sublist (List.take_sublist n _)
  · intro a b hab hsub
    exact List.pair_sublist_insertionSort (le_of_eq hab.symm) hsub
  · intro r hr
    have h1 : r ∈ recSortDesc tbl :=
      (List.take_sublist n (recSortDesc tbl)).subset hr
    exact (List.mem_insertionSort _).mp h1

/-- Witness for C7: a two-row stored table read with limit 1 returns
exactly one row. -/
theorem top_recommendations_spec_witness :
    (topRecommendations [candRow "development" "python" "pycharm" "T",
      candRow "development" "python" "jupyter" "T"] 1).length = min 1 2 :=
  (top_recommendations_spec [candRow "development" "python" "pycharm" "T",
    candRow "development" "python" "jupyter" "T"] 1).1
